import Mathlib

/-!
Verification of the CIterators repository: a shallow embedding of the
generic-iterator library (`src/src/CIterators.c`) and of the introsort
engine built on top of it (`src/src/CSortting.c`), together with proofs
settling the frozen claims about the natural-language specification.

Modelling conventions:
* The array iterator's pointer table (`void **elements`) is modelled for the
  sort engine as a total function `t : Nat → α` together with an element
  count `n : Nat`; slot `i` of the C table is `t i`.  C `swap_elements`
  becomes `swapF`.  Machine indices are `size_t`; all index arithmetic in the
  sort engine stays far below `2^64`, so plain `Nat` is used.
* The comparison contract (`CompareFunc`) is a function `cmp : α → α → Int`;
  "`a` ≤ `b` under the comparator" is `cmp a b ≤ 0`, exactly the test the C
  code performs.
* Iterator-level state is modelled per variant.  The C sentinel index
  `(size_t)-1` of a fresh array iterator is `Option.none`; `it->current`
  being the null pointer is `Option.none`.
* `malloc`/`realloc` are modelled as succeeding unless a claim is explicitly
  about allocation failure, in which case the allocation outcome is an
  explicit `Bool` parameter (see `multiZipNextAlloc`).
* `int depth_limit = 2 * log2(iter->size)` computes (with exact real
  logarithms, which double precision matches for these magnitudes)
  `⌊2·log₂ n⌋ = ⌊log₂ n²⌋`, i.e. `Nat.log2 (n * n)`.
-/

/-- `swap_elements` from CSortting.c lines 21-26: exchange slots `i` and `j`
of the pointer table. -/
def swapF {α : Type} (t : Nat → α) (i j : Nat) : Nat → α :=
  fun k => if k = i then t j else if k = j then t i else t k

/-- The transposition of `i` and `j` on indices; `swapF t i j = t ∘ swapNat i j`. -/
def swapNat (i j : Nat) : Nat → Nat :=
  fun k => if k = i then j else if k = j then i else k

/-- The contents of the first `n` slots of the pointer table, in order.  The
"multiset of elements is unchanged" claims are stated as `List.Perm` of this
list before and after sorting. -/
def tableList {α : Type} (t : Nat → α) (n : Nat) : List α :=
  (List.range n).map t

/-- The first `n` slots are non-decreasing under the comparator. -/
def SortedTable {α : Type} (cmp : α → α → Int) (t : Nat → α) (n : Nat) : Prop :=
  ∀ i j, i ≤ j → j < n → cmp (t i) (t j) ≤ 0

/-- A segment `[0, m]` that is non-decreasing under the comparator. -/
def SortedSeg {α : Type} (cmp : α → α → Int) (t : Nat → α) (m : Nat) : Prop :=
  ∀ p q, p ≤ q → q ≤ m → cmp (t p) (t q) ≤ 0

/-- The max-heap property of the window `[0, n)` restricted to parents `≥ k`:
every in-window child of such a parent compares at or below it. -/
def HeapUpto {α : Type} (cmp : α → α → Int) (t : Nat → α) (n k : Nat) : Prop :=
  ∀ p, k ≤ p → ∀ c, (c = 2 * p + 1 ∨ c = 2 * p + 2) → c < n → cmp (t c) (t p) ≤ 0

/-- `isAnc i j` holds when `j` lies in the binary-heap subtree rooted at `i`
(children of `p` are `2p+1` and `2p+2`), i.e. `i` is reached from `j` by
repeatedly taking parents `(j-1)/2`. -/
def isAnc (i j : Nat) : Bool :=
  if j ≤ i then j == i else isAnc i ((j - 1) / 2)
termination_by j
decreasing_by omega

/-- The inner `while` loop of `insertion_sort` (CSortting.c lines 42-47):
starting at position `j`, swap the element downwards while it compares below
its left neighbour.  The C loop guard `j > 0` is the `0` pattern; at pattern
`j+1` the C body compares `elements[j-1]` with `elements[j]`, i.e. `t j` with
`t (j+1)`, swaps them and decrements `j`. -/
def insertInner {α : Type} (cmp : α → α → Int) : Nat → (Nat → α) → (Nat → α)
  | 0, t => t
  | j + 1, t =>
    if 0 < cmp (t j) (t (j + 1)) then insertInner cmp j (swapF t (j + 1) j) else t

/-- The outer `for` loop of `insertion_sort` (CSortting.c lines 40-48): run
the inner loop at positions `i, i+1, ...` for `k` iterations. -/
def insertOuter {α : Type} (cmp : α → α → Int) : Nat → Nat → (Nat → α) → (Nat → α)
  | 0, _, t => t
  | k + 1, i, t => insertOuter cmp k (i + 1) (insertInner cmp i t)

/-- `insertion_sort` from CSortting.c lines 36-49.  It reads the element
count from `iter->size`, so it always sorts the whole table `[0, n)`,
regardless of which subrange triggered it. -/
def insertion_sort {α : Type} (cmp : α → α → Int) (n : Nat) (t : Nat → α) : Nat → α :=
  insertOuter cmp (n - 1) 1 t

/-- The `largest` index computed by `heapify` (CSortting.c lines 62-70):
start from `i`, move to the left child if it is in range and compares above,
then to the right child if it is in range and compares above the current
largest. -/
def heapifyTarget {α : Type} (cmp : α → α → Int) (n : Nat) (t : Nat → α) (i : Nat) : Nat :=
  let l := 2 * i + 1
  let r := 2 * i + 2
  let largest1 := if l < n ∧ 0 < cmp (t l) (t i) then l else i
  if r < n ∧ 0 < cmp (t r) (t largest1) then r else largest1

/-- `heapify` from CSortting.c lines 58-77: if the largest of node `i` and
its in-range children is not `i`, swap it up and continue sifting down at
that child. -/
def heapify {α : Type} (cmp : α → α → Int) (n : Nat) (t : Nat → α) (i : Nat) : Nat → α :=
  if h : heapifyTarget cmp n t i ≠ i then
    heapify cmp n (swapF t i (heapifyTarget cmp n t i)) (heapifyTarget cmp n t i)
  else t
termination_by n - i
decreasing_by
  simp only [heapifyTarget] at h ⊢
  split_ifs at h ⊢ <;> omega

/-- The heap-construction loop of `heap_sort` (CSortting.c lines 93-94):
`heapify` at `k, k-1, ..., 0`. -/
def buildFrom {α : Type} (cmp : α → α → Int) (n : Nat) : Nat → (Nat → α) → (Nat → α)
  | 0, t => heapify cmp n t 0
  | k + 1, t => buildFrom cmp n k (heapify cmp n t (k + 1))

/-- The extraction loop of `heap_sort` (CSortting.c lines 97-101): for
`i = k, ..., 1`, swap the root with slot `i` and re-`heapify` the shrunken
window `[0, i)`. -/
def extractFrom {α : Type} (cmp : α → α → Int) : Nat → (Nat → α) → (Nat → α)
  | 0, t => t
  | k + 1, t => extractFrom cmp k (heapify cmp (k + 1) (swapF t 0 (k + 1)) 0)

/-- `heap_sort` from CSortting.c lines 87-102.  For `n ≤ 1` both C loops have
empty ranges (the signed loop counters start below 0), so nothing happens. -/
def heap_sort {α : Type} (cmp : α → α → Int) (n : Nat) (t : Nat → α) : Nat → α :=
  if n ≤ 1 then t else extractFrom cmp (n - 1) (buildFrom cmp n (n / 2 - 1) t)

/-- The scan loop of `partition` (CSortting.c lines 119-126): `s` counts the
remaining iterations (`high - j`); an element comparing `≤ 0` against the
pivot value is swapped into the growing left region at `i`. -/
def partLoop {α : Type} (cmp : α → α → Int) (pv : α) :
    Nat → Nat → Nat → (Nat → α) → Nat × (Nat → α)
  | 0, _, i, t => (i, t)
  | s + 1, j, i, t =>
    if cmp (t j) pv ≤ 0 then partLoop cmp pv s (j + 1) (i + 1) (swapF t i j)
    else partLoop cmp pv s (j + 1) i t

/-- `partition` from CSortting.c lines 112-129: Lomuto partition with the
slot at `high` as pivot; finally the pivot is swapped to index `i`. -/
def partition {α : Type} (cmp : α → α → Int) (t : Nat → α) (low high : Nat) :
    Nat × (Nat → α) :=
  let pv := t high
  let r := partLoop cmp pv (high - low) low low t
  (r.1, swapF r.2 r.1 high)

/-- `introsort_impl` from CSortting.c lines 143-169, recursing structurally
on the depth budget (the C recursion decrements `depth_limit` on every
recursive call).  Note that both fallbacks sort via `iter->size`, i.e. the
whole table of `n` slots, not the subrange `[begin, end]`. -/
def introsortImpl {α : Type} (cmp : α → α → Int) (n : Nat) :
    Nat → Nat → Nat → (Nat → α) → (Nat → α)
  | 0, b, e, t =>
    if e - b + 1 < 16 then insertion_sort cmp n t
    else heap_sort cmp n t
  | d + 1, b, e, t =>
    if e - b + 1 < 16 then insertion_sort cmp n t
    else
      let pr := partition cmp t b e
      let t1 := if b + 1 < pr.1 then introsortImpl cmp n d b (pr.1 - 1) pr.2 else pr.2
      if pr.1 + 1 < e then introsortImpl cmp n d (pr.1 + 1) e t1 else t1

/-- The recursion-depth budget of `generic_sort` (CSortting.c line 190):
`(int)(2 * log2(n))` = `⌊2·log₂ n⌋` = `⌊log₂ n²⌋` = `Nat.log2 (n * n)`. -/
def depth_limit (n : Nat) : Nat := Nat.log2 (n * n)

/-- `generic_sort` from CSortting.c lines 180-197, acting on the pointer
table: for `iter->size ≤ 1` it returns immediately, otherwise it runs
`introsort_impl` on `[0, n-1]` with the computed depth budget.  (The final
cursor reset `iter->index = 0` does not touch the table.) -/
def generic_sort {α : Type} (cmp : α → α → Int) (n : Nat) (t : Nat → α) : Nat → α :=
  if n ≤ 1 then t else introsortImpl cmp n (depth_limit n) 0 (n - 1) t

/-- State of a `GenericArrayIterator` together with the `current` slot of its
owning `Iterator` record (CIterators.h).  `index = none` models the
`(size_t)-1` sentinel set at construction; `current = none` models the null
pointer. -/
structure ArrayIter (α : Type) where
  elements : List α
  index : Option Nat
  current : Option α
deriving DecidableEq, Repr

/-- `create_generic_array_iterator` from CIterators.c lines 81-111 (successful
allocation): the pointer table holds one slot per element, `index` is the
before-first sentinel, `current` is null. -/
def create_generic_array_iterator {α : Type} (l : List α) : ArrayIter α :=
  ⟨l, none, none⟩

/-- `generic_array_next` from CIterators.c lines 30-44.  The Bool is the C
return value (`it` vs `NULL`).  On the sentinel branch the code sets
`index = 0` and reads `elements[0]` with no size check; for an empty table
that out-of-bounds read is modelled by `l.get? 0 = none`. -/
def generic_array_next {α : Type} (it : ArrayIter α) : Bool × ArrayIter α :=
  match it.index with
  | none => (true, { it with index := some 0, current := it.elements.get? 0 })
  | some i =>
    if i + 1 < it.elements.length then
      (true, { it with index := some (i + 1), current := it.elements.get? (i + 1) })
    else
      (false, { it with current := none })

/-- `generic_array_equal` from CIterators.c lines 53-58 compares index and
backing-table identity; with the table modelled by value, table identity is
list equality. -/
def generic_array_equal {α : Type} [DecidableEq α] (a b : ArrayIter α) : Bool :=
  a.index == b.index && a.elements == b.elements

/-- `iterator_advance` from CIterators.c lines 467-480, specialised to the
array variant: call `next` up to `n` times, stopping with `false` as soon as
one call signals exhaustion (the iterator is left where it failed). -/
def iterator_advance {α : Type} : ArrayIter α → Nat → Bool × ArrayIter α
  | it, 0 => (true, it)
  | it, n + 1 =>
    match generic_array_next it with
    | (true, it') => iterator_advance it' n
    | (false, it') => (false, it')

/-- Termination measure for draining an array iterator: the sentinel state is
one step before index 0. -/
def drainRank {α : Type} (it : ArrayIter α) : Nat :=
  match it.index with
  | none => it.elements.length + 1
  | some i => it.elements.length - i

/-- `iterator_to_array` from CIterators.c lines 537-566, specialised to the
array variant.  The C function receives the `Iterator` record by value but
`impl` is a shared heap pointer, so the loop `while (it.next(&it))` advances
the caller's `GenericArrayIterator` state; the model therefore returns the
final shared state alongside the collected elements (each entry is the
`deref`'d `current` pointer; `none` is a null/garbage pointer). -/
def iterator_to_array {α : Type} (it : ArrayIter α) : List (Option α) × ArrayIter α :=
  match h : generic_array_next it with
  | (true, it') =>
    let p := iterator_to_array it'
    (it'.current :: p.1, p.2)
  | (false, it') => ([], it')
termination_by drainRank it
decreasing_by
  rcases it with ⟨els, ind, cur⟩
  rcases ind with _ | i
  · simp only [generic_array_next, Prod.mk.injEq, true_and] at h
    subst h
    simp [drainRank]
  · simp only [generic_array_next] at h
    split_ifs at h with hlt
    · simp only [Prod.mk.injEq, true_and] at h
      subst h
      simp only [drainRank]
      omega
    · simp at h

/-- State of a `RangeIterator` (CIterators.h) plus the `current` slot of its
owning `Iterator` record.  The C record field `end` is named `endv` here
(`end` is a Lean keyword).  `it->current` either is null (`curNonNull =
false`) or points at `impl->current` (`curNonNull = true`); dereferencing it
reads the present value of `current`. -/
structure RangeIter where
  start : Int
  current : Int
  endv : Int
  step : Int
  curNonNull : Bool
deriving DecidableEq, Repr

/-- `create_range_iterator` from CIterators.c lines 176-201: a zero step
yields the inert zeroed iterator (`none`); otherwise `current` starts at
`start - step` so that the first `next` lands on `start`, and `it->current`
is null. -/
def create_range_iterator (start endv step : Int) : Option RangeIter :=
  if step = 0 then none
  else some ⟨start, start - step, endv, step, false⟩

/-- `range_next` from CIterators.c lines 119-129: compute `current + step`;
if that reaches or crosses `end` in the direction of travel, return the
exhaustion signal leaving the state (including `it->current`) untouched;
otherwise store the value and point `it->current` at it. -/
def range_next (it : RangeIter) : Bool × RangeIter :=
  let next_val := it.current + it.step
  if (0 < it.step ∧ it.endv ≤ next_val) ∨ (it.step < 0 ∧ next_val ≤ it.endv) then
    (false, it)
  else
    (true, { it with current := next_val, curNonNull := true })

/-- `range_equal` from CIterators.c lines 138-143: equality of two range
iterators compares `current`, `end` and `step` of the impl states. -/
def range_equal (a b : RangeIter) : Bool :=
  a.current == b.current && a.endv == b.endv && a.step == b.step

/-- Drain a range iterator with `fuel` advance calls, collecting the value
produced by each successful `next` (the deref of `it->current`, i.e. the
updated `impl->current`). -/
def rangeDrain : Nat → RangeIter → List Int
  | 0, _ => []
  | fuel + 1, it =>
    match range_next it with
    | (false, _) => []
    | (true, it') => it'.current :: rangeDrain fuel it'

/-- Mirror of a range-iterator state under negation of all values. -/
def rangeNeg (it : RangeIter) : RangeIter :=
  ⟨-it.start, -it.current, -it.endv, -it.step, it.curNonNull⟩

/-- `multi_zip_next` from CIterators.c lines 208-230, with each source
iterator modelled by the list of elements it has yet to produce (`next`
succeeds exactly on a nonempty list, advancing to its tail; `deref` then
yields the head — every variant in the library behaves this way once
constructed, with exhaustion permanent).  Sources are advanced left to
right; the first exhausted source breaks the loop, leaving the later
sources' states untouched, and the call returns the exhaustion signal.
Otherwise the assembled tuple of current elements is returned. -/
def multiZipNext {α : Type} : List (List α) → Option (List α) × List (List α)
  | [] => (some [], [])
  | l :: rest =>
    match l with
    | [] => (none, [] :: rest)
    | x :: xs =>
      match multiZipNext rest with
      | (none, rest') => (none, xs :: rest')
      | (some tup, rest') => (some (x :: tup), xs :: rest')

/-- Drain a zip iterator with `fuel` advance calls, collecting each produced
tuple until the first exhaustion signal. -/
def zipDrain {α : Type} : Nat → List (List α) → List (List α)
  | 0, _ => []
  | fuel + 1, ls =>
    match multiZipNext ls with
    | (none, _) => []
    | (some tup, ls') => tup :: zipDrain fuel ls'

/-- `multi_zip_next` with the tuple-buffer `malloc` outcome made explicit
(CIterators.c line 211 performs no null check).  When `allocOk = false` and
the first source still advances, the code stores through the null buffer
(`elements[i] = ...`), which is a crash/undefined behaviour, modelled as
`Except.error ()`.  If the first source is already exhausted the loop breaks
before any store, `free(NULL)` is harmless, and the exhaustion signal is
returned; with zero sources the loop body never runs and the null buffer
itself becomes `it->current` (an empty tuple here). -/
def multiZipNextAlloc {α : Type} (allocOk : Bool) (ls : List (List α)) :
    Except Unit (Option (List α) × List (List α)) :=
  if allocOk then Except.ok (multiZipNext ls)
  else
    match ls with
    | [] => Except.ok (some [], [])
    | l :: rest =>
      match l with
      | [] => Except.ok (none, [] :: rest)
      | _ :: _ => Except.error ()

/-- An integer comparator implementing the usual total order, used as the
concrete comparator of witnesses. -/
def intCmp (a b : Int) : Int := a - b

/-! ### Basic facts about the comparator contract and swaps -/

/-- A total comparator is reflexively non-positive. -/
theorem cmp_self_le {α : Type} {cmp : α → α → Int}
    (htot : ∀ a b, cmp a b ≤ 0 ∨ cmp b a ≤ 0) (a : α) : cmp a a ≤ 0 := by
  rcases htot a a with h | h <;> exact h

/-- If `a` compares strictly above `b`, then `b` compares at or below `a`. -/
theorem cmp_flip {α : Type} {cmp : α → α → Int}
    (htot : ∀ a b, cmp a b ≤ 0 ∨ cmp b a ≤ 0) {a b : α} (h : 0 < cmp a b) :
    cmp b a ≤ 0 := by
  rcases htot a b with h1 | h1
  · omega
  · exact h1

theorem swapF_comp {α : Type} (t : Nat → α) (i j : Nat) :
    swapF t i j = fun k => t (swapNat i j k) := by
  funext k
  simp only [swapF, swapNat]
  split_ifs <;> rfl

theorem swapNat_invol (i j k : Nat) : swapNat i j (swapNat i j k) = k := by
  simp only [swapNat]
  split_ifs <;> omega

theorem swapNat_inj (i j : Nat) : Function.Injective (swapNat i j) := by
  intro a b h
  have := congrArg (swapNat i j) h
  rwa [swapNat_invol, swapNat_invol] at this

theorem swapNat_lt_iff {n i j : Nat} (hi : i < n) (hj : j < n) (k : Nat) :
    swapNat i j k < n ↔ k < n := by
  simp only [swapNat]
  split_ifs <;> omega

theorem range_map_swapNat_perm {n i j : Nat} (hi : i < n) (hj : j < n) :
    ((List.range n).map (swapNat i j)).Perm (List.range n) := by
  rw [List.perm_iff_count]
  intro a
  by_cases ha : a < n
  · have hstep : List.count a ((List.range n).map (swapNat i j)) = 1 := by
      have : a = swapNat i j (swapNat i j a) := (swapNat_invol i j a).symm
      rw [this, List.count_map_of_injective _ _ (swapNat_inj i j)]
      exact List.count_eq_one_of_mem (List.nodup_range n)
        (List.mem_range.mpr ((swapNat_lt_iff hi hj a).mpr ha))
    rw [hstep, List.count_eq_one_of_mem (List.nodup_range n) (List.mem_range.mpr ha)]
  · have h1 : List.count a ((List.range n).map (swapNat i j)) = 0 := by
      refine List.count_eq_zero_of_not_mem ?_
      intro hmem
      rcases List.mem_map.mp hmem with ⟨m, hm, hma⟩
      have hmn : m < n := List.mem_range.mp hm
      exact ha (hma ▸ (swapNat_lt_iff hi hj m).mpr hmn)
    have h2 : List.count a (List.range n) = 0 :=
      List.count_eq_zero_of_not_mem (fun hmem => ha (List.mem_range.mp hmem))
    rw [h1, h2]

/-- A swap of two in-range slots permutes the table contents. -/
theorem perm_swapF {α : Type} (t : Nat → α) {n i j : Nat} (hi : i < n) (hj : j < n) :
    (tableList (swapF t i j) n).Perm (tableList t n) := by
  rw [tableList, tableList, swapF_comp]
  have hmapmap : (List.range n).map (fun k => t (swapNat i j k)) =
      ((List.range n).map (swapNat i j)).map t := by
    rw [List.map_map]
    rfl
  rw [hmapmap]
  exact (range_map_swapNat_perm hi hj).map t

/-- If two tables have permuted contents on `[0, n)` and agree outside a
predicate `P`, their contents restricted to `P` are also permuted. -/
theorem perm_filter_of_perm_of_eq {α : Type} {t1 t2 : Nat → α} {n : Nat} {P : Nat → Bool}
    (hperm : (tableList t1 n).Perm (tableList t2 n))
    (heq : ∀ j, j < n → P j = false → t1 j = t2 j) :
    (((List.range n).filter P).map t1).Perm (((List.range n).filter P).map t2) := by
  have hsplit := List.filter_append_perm P (List.range n)
  have h1 : ((((List.range n).filter P) ++
      ((List.range n).filter (fun x => !P x))).map t1).Perm (tableList t1 n) :=
    hsplit.map t1
  have h2 : ((((List.range n).filter P) ++
      ((List.range n).filter (fun x => !P x))).map t2).Perm (tableList t2 n) :=
    hsplit.map t2
  rw [List.map_append] at h1 h2
  have hB : ((List.range n).filter (fun x => !P x)).map t1 =
      ((List.range n).filter (fun x => !P x)).map t2 := by
    refine List.map_congr_left ?_
    intro a hmem
    have hmr := List.mem_filter.mp hmem
    exact heq a (List.mem_range.mp hmr.1) (by simpa using hmr.2)
  have hchain : ((((List.range n).filter P).map t1) ++
      (((List.range n).filter (fun x => !P x)).map t1)).Perm
      ((((List.range n).filter P).map t2) ++
      (((List.range n).filter (fun x => !P x)).map t1)) := by
    refine h1.trans (hperm.trans ?_)
    rw [hB]
    exact h2.symm
  exact (List.perm_append_right_iff _).mp hchain

/-- Extend a contents-permutation on a window `[0, w)` to a larger window
when the tables agree from `w` on. -/
theorem perm_extend {α : Type} {t1 t2 : Nat → α} {w n : Nat} (hw : w ≤ n)
    (hperm : (tableList t1 w).Perm (tableList t2 w))
    (heq : ∀ j, w ≤ j → t1 j = t2 j) :
    (tableList t1 n).Perm (tableList t2 n) := by
  have hn : n = w + (n - w) := by omega
  rw [tableList, tableList, hn, List.range_add, List.map_append, List.map_append]
  have htail : (List.map (fun x => w + x) (List.range (n - w))).map t1 =
      (List.map (fun x => w + x) (List.range (n - w))).map t2 := by
    rw [List.map_map, List.map_map]
    refine List.map_congr_left ?_
    intro a _
    exact heq (w + a) (Nat.le_add_right w a)
  rw [htail]
  exact hperm.append_right _

/-! ### Insertion sort: permutation and sortedness -/

theorem insertInner_frame {α : Type} (cmp : α → α → Int) :
    ∀ (j : Nat) (t : Nat → α) (k : Nat), j < k → insertInner cmp j t k = t k := by
  intro j
  induction j with
  | zero => intro t k _; rfl
  | succ j ih =>
    intro t k hk
    simp only [insertInner]
    split_ifs with hc
    · rw [ih _ k (by omega)]
      simp only [swapF]
      rw [if_neg (by omega), if_neg (by omega)]
    · rfl

theorem insertInner_perm {α : Type} (cmp : α → α → Int) {n : Nat} :
    ∀ (j : Nat) (t : Nat → α), j < n →
      (tableList (insertInner cmp j t) n).Perm (tableList t n) := by
  intro j
  induction j with
  | zero => intro t _; exact List.Perm.refl _
  | succ j ih =>
    intro t hj
    simp only [insertInner]
    split_ifs with hc
    · exact (ih _ (by omega)).trans (perm_swapF t hj (by omega))
    · exact List.Perm.refl _

theorem swapF_left {α : Type} (t : Nat → α) (i j : Nat) : swapF t i j i = t j := by
  simp [swapF]

theorem swapF_right {α : Type} (t : Nat → α) (i j : Nat) (h : j ≠ i) :
    swapF t i j j = t i := by
  simp [swapF, h]

theorem swapF_other {α : Type} (t : Nat → α) (i j k : Nat) (h1 : k ≠ i) (h2 : k ≠ j) :
    swapF t i j k = t k := by
  simp [swapF, h1, h2]

theorem insertInner_sorted {α : Type} {cmp : α → α → Int}
    (htot : ∀ a b, cmp a b ≤ 0 ∨ cmp b a ≤ 0)
    (htr : ∀ a b c, cmp a b ≤ 0 → cmp b c ≤ 0 → cmp a c ≤ 0) :
    ∀ (j : Nat) (t : Nat → α) (m : Nat), j ≤ m →
      (∀ p q, p ≤ q → q ≤ m → p ≠ j → q ≠ j → cmp (t p) (t q) ≤ 0) →
      (∀ q, j < q → q ≤ m → cmp (t j) (t q) ≤ 0) →
      SortedSeg cmp (insertInner cmp j t) m := by
  intro j
  induction j with
  | zero =>
    intro t m _ h1 h2 p q hpq hqm
    simp only [insertInner]
    by_cases hp : p = 0
    · subst hp
      by_cases hq : q = 0
      · subst hq; exact cmp_self_le htot _
      · exact h2 q (by omega) hqm
    · exact h1 p q hpq hqm hp (by omega)
  | succ j ih =>
    intro t m hjm h1 h2
    simp only [insertInner]
    split_ifs with hc
    · refine ih (swapF t (j + 1) j) m (by omega) ?_ ?_
      · intro p q hpq hqm hp hq
        by_cases hq1 : q = j + 1
        · subst hq1
          by_cases hp1 : p = j + 1
          · subst hp1
            rw [swapF_left]
            exact cmp_self_le htot _
          · have hpj : p < j := by omega
            rw [swapF_other t _ _ p hp1 (by omega), swapF_left]
            exact h1 p j (by omega) (by omega) (by omega) (by omega)
        · by_cases hp1 : p = j + 1
          · subst hp1
            have hq2 : j + 1 < q := by omega
            rw [swapF_left, swapF_other t _ _ q hq1 (by omega)]
            exact h1 j q (by omega) hqm (by omega) (by omega)
          · rw [swapF_other t _ _ p hp1 (by omega), swapF_other t _ _ q hq1 (by omega)]
            exact h1 p q hpq hqm (by omega) (by omega)
      · intro q hjq hqm
        by_cases hq1 : q = j + 1
        · subst hq1
          rw [swapF_right t _ _ (by omega), swapF_left]
          exact cmp_flip htot hc
        · rw [swapF_right t _ _ (by omega), swapF_other t _ _ q hq1 (by omega)]
          exact h2 q (by omega) hqm
    · have hle : cmp (t j) (t (j + 1)) ≤ 0 := by omega
      intro p q hpq hqm
      by_cases hq1 : q = j + 1
      · subst hq1
        by_cases hp1 : p = j + 1
        · subst hp1; exact cmp_self_le htot _
        · by_cases hpj : p = j
          · subst hpj; exact hle
          · exact htr _ _ _
              (h1 p j (by omega) (by omega) (by omega) (by omega)) hle
      · by_cases hp1 : p = j + 1
        · subst hp1
          exact h2 q (by omega) hqm
        · exact h1 p q hpq hqm hp1 hq1

theorem insertOuter_sorted {α : Type} {cmp : α → α → Int}
    (htot : ∀ a b, cmp a b ≤ 0 ∨ cmp b a ≤ 0)
    (htr : ∀ a b c, cmp a b ≤ 0 → cmp b c ≤ 0 → cmp a c ≤ 0) :
    ∀ (k i : Nat) (t : Nat → α), 1 ≤ i → SortedSeg cmp t (i - 1) →
      SortedSeg cmp (insertOuter cmp k i t) (i - 1 + k) := by
  intro k
  induction k with
  | zero => intro i t _ hs; exact hs
  | succ k ih =>
    intro i t hi hs
    simp only [insertOuter]
    have hstep : SortedSeg cmp (insertInner cmp i t) i := by
      refine insertInner_sorted htot htr i t i (le_refl i) ?_ ?_
      · intro p q hpq hqm hp hq
        exact hs p q hpq (by omega)
      · intro q hq1 hq2; omega
    have := ih (i + 1) (insertInner cmp i t) (by omega) (by simpa using hstep)
    have hrw : i + 1 - 1 + k = i - 1 + (k + 1) := by omega
    rwa [hrw] at this

theorem insertOuter_perm {α : Type} (cmp : α → α → Int) {n : Nat} :
    ∀ (k i : Nat) (t : Nat → α), i + k ≤ n →
      (tableList (insertOuter cmp k i t) n).Perm (tableList t n) := by
  intro k
  induction k with
  | zero => intro i t _; exact List.Perm.refl _
  | succ k ih =>
    intro i t hk
    simp only [insertOuter]
    exact (ih (i + 1) _ (by omega)).trans (insertInner_perm cmp i t (by omega))

/-- `insertion_sort` leaves the whole table non-decreasing. -/
theorem insertion_sort_sorted {α : Type} {cmp : α → α → Int}
    (htot : ∀ a b, cmp a b ≤ 0 ∨ cmp b a ≤ 0)
    (htr : ∀ a b c, cmp a b ≤ 0 → cmp b c ≤ 0 → cmp a c ≤ 0)
    (n : Nat) (t : Nat → α) : SortedTable cmp (insertion_sort cmp n t) n := by
  rcases Nat.eq_zero_or_pos n with hn | hn
  · subst hn; intro i j _ hj; omega
  · have hbase : SortedSeg cmp t 0 := by
      intro p q hpq hq
      have hp0 : p = 0 := by omega
      have hq0 : q = 0 := by omega
      subst hp0; subst hq0
      exact cmp_self_le htot _
    have := insertOuter_sorted htot htr (n - 1) 1 t (le_refl 1) (by simpa using hbase)
    intro i j hij hj
    exact this i j hij (by omega)

/-- `insertion_sort` permutes the table contents. -/
theorem insertion_sort_perm {α : Type} (cmp : α → α → Int) (n : Nat) (t : Nat → α) :
    (tableList (insertion_sort cmp n t) n).Perm (tableList t n) := by
  rcases Nat.eq_zero_or_pos n with hn | hn
  · subst hn
    exact List.Perm.refl _
  · exact insertOuter_perm cmp (n - 1) 1 t (by omega)

/-! ### Heap sort: ancestor relation, heapify, build, extract -/

theorem isAnc_refl (i : Nat) : isAnc i i = true := by
  rw [isAnc]
  simp

theorem isAnc_le : ∀ j i, isAnc i j = true → i ≤ j := by
  intro j
  induction j using Nat.strong_induction_on with
  | _ j ih =>
    intro i h
    rw [isAnc] at h
    split_ifs at h with hle
    · simp at h
      omega
    · have := ih ((j - 1) / 2) (by omega) i h
      omega

theorem isAnc_false_of_lt {i j : Nat} (h : j < i) : isAnc i j = false := by
  cases heq : isAnc i j with
  | false => rfl
  | true => exact absurd (isAnc_le j i heq) (by omega)

theorem isAnc_zero : ∀ j, isAnc 0 j = true := by
  intro j
  induction j using Nat.strong_induction_on with
  | _ j ih =>
    rw [isAnc]
    split_ifs with h
    · have hj : j = 0 := by omega
      simp [hj]
    · exact ih ((j - 1) / 2) (by omega)

theorem isAnc_child {i c : Nat} (hc : c = 2 * i + 1 ∨ c = 2 * i + 2) :
    isAnc i c = true := by
  rw [isAnc]
  rw [if_neg (by omega)]
  have hp : (c - 1) / 2 = i := by omega
  rw [hp, isAnc_refl]

theorem isAnc_parent {i j : Nat} (h : isAnc i j = true) (hne : j ≠ i) :
    isAnc i ((j - 1) / 2) = true := by
  rw [isAnc] at h
  split_ifs at h with hle
  · simp at h
    exact absurd h hne
  · exact h

theorem isAnc_child_cases {c q : Nat} (h : isAnc c q = true) :
    q = c ∨ isAnc c ((q - 1) / 2) = true := by
  by_cases hq : q = c
  · exact Or.inl hq
  · exact Or.inr (isAnc_parent h hq)

theorem isAnc_trans : ∀ (k i j : Nat), isAnc i j = true → isAnc j k = true →
    isAnc i k = true := by
  intro k
  induction k using Nat.strong_induction_on with
  | _ k ihk =>
    intro i j hij hjk
    by_cases hkj : k = j
    · subst hkj; exact hij
    · have hjlek : j ≤ k := isAnc_le _ _ hjk
      have hpar : isAnc j ((k - 1) / 2) = true := isAnc_parent hjk hkj
      have hik : i ≤ j := isAnc_le _ _ hij
      rw [isAnc]
      split_ifs with hki
      · exact absurd (by omega : k = j) hkj
      · exact ihk ((k - 1) / 2) (by omega) i j hij hpar

/-- In a heap whose parents from `k` on are valid, every in-window member of
the subtree rooted at `d ≥ k` compares at or below the subtree root. -/
theorem subtree_le {α : Type} {cmp : α → α → Int}
    (htot : ∀ a b, cmp a b ≤ 0 ∨ cmp b a ≤ 0)
    (htr : ∀ a b c, cmp a b ≤ 0 → cmp b c ≤ 0 → cmp a c ≤ 0)
    {t : Nat → α} {n k d : Nat}
    (hH : HeapUpto cmp t n k) (hdk : k ≤ d) :
    ∀ j, j < n → isAnc d j = true → cmp (t j) (t d) ≤ 0 := by
  intro j
  induction j using Nat.strong_induction_on with
  | _ j ihj =>
    intro hjn hanc
    by_cases hjd : j = d
    · subst hjd
      exact cmp_self_le htot _
    · have hdj : d ≤ j := isAnc_le _ _ hanc
      have hpanc := isAnc_parent hanc hjd
      have hdp : d ≤ (j - 1) / 2 := isAnc_le _ _ hpanc
      have hchild : j = 2 * ((j - 1) / 2) + 1 ∨ j = 2 * ((j - 1) / 2) + 2 := by omega
      have hstep : cmp (t j) (t ((j - 1) / 2)) ≤ 0 :=
        hH ((j - 1) / 2) (by omega) j hchild hjn
      have hup : cmp (t ((j - 1) / 2)) (t d) ≤ 0 :=
        ihj ((j - 1) / 2) (by omega) (by omega) hpanc
      exact htr _ _ _ hstep hup

/-- Complete case analysis of the `largest` selection in `heapify`: either it
stays at `i` and both in-range children compare at or below `i`, or it is an
in-range child strictly above `i` that dominates `i` and both in-range
children. -/
theorem heapifyTarget_spec {α : Type} {cmp : α → α → Int}
    (htot : ∀ a b, cmp a b ≤ 0 ∨ cmp b a ≤ 0)
    (htr : ∀ a b c, cmp a b ≤ 0 → cmp b c ≤ 0 → cmp a c ≤ 0)
    (n : Nat) (t : Nat → α) (i : Nat) :
    (heapifyTarget cmp n t i = i ∧
      (2 * i + 1 < n → cmp (t (2 * i + 1)) (t i) ≤ 0) ∧
      (2 * i + 2 < n → cmp (t (2 * i + 2)) (t i) ≤ 0)) ∨
    (heapifyTarget cmp n t i ≠ i ∧
      (heapifyTarget cmp n t i = 2 * i + 1 ∨ heapifyTarget cmp n t i = 2 * i + 2) ∧
      heapifyTarget cmp n t i < n ∧ i < heapifyTarget cmp n t i ∧
      cmp (t i) (t (heapifyTarget cmp n t i)) ≤ 0 ∧
      (2 * i + 1 < n → cmp (t (2 * i + 1)) (t (heapifyTarget cmp n t i)) ≤ 0) ∧
      (2 * i + 2 < n → cmp (t (2 * i + 2)) (t (heapifyTarget cmp n t i)) ≤ 0)) := by
  simp only [heapifyTarget]
  split_ifs with h1 h2 h3
  · -- left child larger than root, right child larger than left child
    refine Or.inr ⟨by omega, Or.inr rfl, h2.1, by omega, ?_, ?_, ?_⟩
    · exact htr _ _ _ (cmp_flip htot h1.2) (cmp_flip htot h2.2)
    · intro _
      exact cmp_flip htot h2.2
    · intro _
      exact cmp_self_le htot _
  · -- left child larger than root, right child not above it
    refine Or.inr ⟨by omega, Or.inl rfl, h1.1, by omega, cmp_flip htot h1.2, ?_, ?_⟩
    · intro _
      exact cmp_self_le htot _
    · intro hrn
      push_neg at h2
      exact h2 hrn
  · -- root at or above left child, right child larger than root
    refine Or.inr ⟨by omega, Or.inr rfl, h3.1, by omega, cmp_flip htot h3.2, ?_, ?_⟩
    · intro hln
      push_neg at h1
      exact htr _ _ _ (h1 hln) (cmp_flip htot h3.2)
    · intro _
      exact cmp_self_le htot _
  · -- root dominates both in-range children
    push_neg at h1 h3
    exact Or.inl ⟨rfl, h1, h3⟩

/-- The behaviour of one complete `heapify` sift-down: given that all parents
strictly below node `i` already satisfy the heap property on window `n`, the
result satisfies it from `i` on; only slots in the subtree of `i` inside the
window change; and the window contents are permuted. -/
theorem heapify_spec {α : Type} {cmp : α → α → Int}
    (htot : ∀ a b, cmp a b ≤ 0 ∨ cmp b a ≤ 0)
    (htr : ∀ a b c, cmp a b ≤ 0 → cmp b c ≤ 0 → cmp a c ≤ 0)
    (n : Nat) :
    ∀ (m i : Nat) (t : Nat → α), n - i ≤ m → HeapUpto cmp t n (i + 1) →
      HeapUpto cmp (heapify cmp n t i) n i ∧
      (∀ j, (isAnc i j = false ∨ n ≤ j) → heapify cmp n t i j = t j) ∧
      (tableList (heapify cmp n t i) n).Perm (tableList t n) := by
  intro m
  induction m with
  | zero =>
    intro i t hm hpre
    have hni : n ≤ i := by omega
    have htgt : heapifyTarget cmp n t i = i := by
      simp only [heapifyTarget]
      split_ifs with h1 h2 h3
      · exact absurd h1.1 (by omega)
      · exact absurd h1.1 (by omega)
      · exact absurd h3.1 (by omega)
      · rfl
    have hid : heapify cmp n t i = t := by
      rw [heapify, dif_neg (not_not_intro htgt)]
    rw [hid]
    refine ⟨?_, fun j _ => rfl, List.Perm.refl _⟩
    intro p hp c hc hcn
    exact absurd hcn (by omega)
  | succ m ih =>
    intro i t hm hpre
    by_cases hgi : heapifyTarget cmp n t i = i
    · have hid : heapify cmp n t i = t := by
        rw [heapify, dif_neg (not_not_intro hgi)]
      rw [hid]
      refine ⟨?_, fun j _ => rfl, List.Perm.refl _⟩
      intro p hp c hc hcn
      by_cases hpi : p = i
      · subst hpi
        rcases heapifyTarget_spec htot htr n t p with ⟨_, hl, hr⟩ | ⟨hne, _⟩
        · rcases hc with rfl | rfl
          · exact hl hcn
          · exact hr hcn
        · exact absurd hgi hne
      · exact hpre p (by omega) c hc hcn
    · rcases heapifyTarget_spec htot htr n t i with ⟨heq, _, _⟩ |
        ⟨hne, hchild, hgn, hig, hle_ig, hlb, hrb⟩
      · exact absurd heq hgi
      set g := heapifyTarget cmp n t i with hg
      have hstep : heapify cmp n t i = heapify cmp n (swapF t i g) g := by
        rw [heapify, dif_pos hgi]
      have hpre1 : HeapUpto cmp (swapF t i g) n (g + 1) := by
        intro p hp c hc hcn
        rw [swapF_other t i g p (by omega) (by omega),
            swapF_other t i g c (by omega) (by omega)]
        exact hpre p (by omega) c hc hcn
      obtain ⟨hA, hB, hC⟩ := ih g (swapF t i g) (by omega) hpre1
      rw [hstep]
      refine ⟨?_, ?_, ?_⟩
      · intro p hp c hc hcn
        by_cases hpg : g ≤ p
        · exact hA p hpg c hc hcn
        · push_neg at hpg
          by_cases hpi : p = i
          · subst hpi
            by_cases hcg : c = g
            · subst hcg
              have hti : heapify cmp n (swapF t p g) g p = t g := by
                rw [hB p (Or.inl (isAnc_false_of_lt hig)), swapF_left]
              rw [hti]
              have hfilter := perm_filter_of_perm_of_eq (P := fun j => isAnc g j) hC
                (fun j _ hPj => hB j (Or.inl hPj))
              have hmem0 : heapify cmp n (swapF t p g) g g ∈
                  ((List.range n).filter (fun j => isAnc g j)).map
                    (heapify cmp n (swapF t p g) g) :=
                List.mem_map_of_mem _
                  (List.mem_filter.mpr ⟨List.mem_range.mpr hgn, isAnc_refl g⟩)
              obtain ⟨j0, hj0mem, hval⟩ := List.mem_map.mp (hfilter.mem_iff.mp hmem0)
              have hj0n : j0 < n := List.mem_range.mp (List.mem_filter.mp hj0mem).1
              have hanc0 : isAnc g j0 = true := by
                simpa using (List.mem_filter.mp hj0mem).2
              have hbound : cmp (swapF t p g j0) (t g) ≤ 0 := by
                by_cases hj0g : j0 = g
                · rw [hj0g, swapF_right t p g (by omega)]
                  exact hle_ig
                · have hgj0 : g < j0 :=
                    lt_of_le_of_ne (isAnc_le _ _ hanc0) (Ne.symm hj0g)
                  rw [swapF_other t p g j0 (by omega) hj0g]
                  exact subtree_le htot htr hpre (by omega) j0 hj0n hanc0
              rw [← hval]
              exact hbound
            · have hcanc : isAnc g c = false := by
                cases hqc : isAnc g c with
                | false => rfl
                | true =>
                  rcases isAnc_child_cases hqc with hceq | hpar
                  · exact absurd hceq hcg
                  · have hpc : (c - 1) / 2 = p := by omega
                    rw [hpc] at hpar
                    exact absurd (isAnc_le _ _ hpar) (by omega)
              rw [hB c (Or.inl hcanc), hB p (Or.inl (isAnc_false_of_lt hig)),
                  swapF_other t p g c (by omega) hcg, swapF_left]
              rcases hc with rfl | rfl
              · exact hlb hcn
              · exact hrb hcn
          · have hpi' : i < p := by omega
            have hcne_g : c ≠ g := by
              rcases hc with rfl | rfl <;> rcases hchild with hgv | hgv <;> omega
            have hcanc : isAnc g c = false := by
              cases hqc : isAnc g c with
              | false => rfl
              | true =>
                rcases isAnc_child_cases hqc with hceq | hpar
                · exact absurd hceq hcne_g
                · have hpc : (c - 1) / 2 = p := by omega
                  rw [hpc] at hpar
                  exact absurd (isAnc_le _ _ hpar) (by omega)
            rw [hB c (Or.inl hcanc), hB p (Or.inl (isAnc_false_of_lt hpg)),
                swapF_other t i g c (by omega) hcne_g,
                swapF_other t i g p (by omega) (by omega)]
            exact hpre p (by omega) c hc hcn
      · intro j hj
        rcases hj with hfalse | hjn
        · have hancig : isAnc i g = true := isAnc_child hchild
          have hgj : isAnc g j = false := by
            cases hqc : isAnc g j with
            | false => rfl
            | true => exact absurd (isAnc_trans j i g hancig hqc) (by simp [hfalse])
          rw [hB j (Or.inl hgj)]
          have hji : j ≠ i := by
            intro hj'
            subst hj'
            simp [isAnc_refl] at hfalse
          have hjg : j ≠ g := by
            intro hj'
            subst hj'
            simp [hancig] at hfalse
          exact swapF_other t i g j hji hjg
        · rw [hB j (Or.inr hjn)]
          exact swapF_other t i g j (by omega) (by omega)
      · exact hC.trans (perm_swapF t (by omega) hgn)

/-- The heap-construction loop turns any table whose parents above `k`
already satisfy the heap property into a full max-heap, permuting the
window contents. -/
theorem buildFrom_spec {α : Type} {cmp : α → α → Int}
    (htot : ∀ a b, cmp a b ≤ 0 ∨ cmp b a ≤ 0)
    (htr : ∀ a b c, cmp a b ≤ 0 → cmp b c ≤ 0 → cmp a c ≤ 0)
    (n : Nat) :
    ∀ (k : Nat) (t : Nat → α), HeapUpto cmp t n (k + 1) →
      HeapUpto cmp (buildFrom cmp n k t) n 0 ∧
      (tableList (buildFrom cmp n k t) n).Perm (tableList t n) := by
  intro k
  induction k with
  | zero =>
    intro t hpre
    obtain ⟨hA, _, hC⟩ := heapify_spec htot htr n n 0 t (by omega) hpre
    exact ⟨hA, hC⟩
  | succ k ihk =>
    intro t hpre
    obtain ⟨hA, _, hC⟩ := heapify_spec htot htr n n (k + 1) t (by omega) hpre
    obtain ⟨hA2, hC2⟩ := ihk (heapify cmp n t (k + 1)) hA
    exact ⟨hA2, hC2.trans hC⟩

/-- The extraction loop: starting from a max-heap on the window `[0, k+1]`
whose contents all compare at or below the already-sorted suffix `[k+1, n)`,
it leaves the whole table sorted, permuting its contents. -/
theorem extractFrom_spec {α : Type} {cmp : α → α → Int}
    (htot : ∀ a b, cmp a b ≤ 0 ∨ cmp b a ≤ 0)
    (htr : ∀ a b c, cmp a b ≤ 0 → cmp b c ≤ 0 → cmp a c ≤ 0)
    (n : Nat) :
    ∀ (k : Nat) (t : Nat → α), k + 1 ≤ n →
      HeapUpto cmp t (k + 1) 0 →
      (∀ p q, p ≤ q → k + 1 ≤ q → q < n → cmp (t p) (t q) ≤ 0) →
      SortedTable cmp (extractFrom cmp k t) n ∧
      (tableList (extractFrom cmp k t) n).Perm (tableList t n) := by
  intro k
  induction k with
  | zero =>
    intro t hkn hheap hsuf
    constructor
    · intro i j hij hjn
      by_cases hj0 : j = 0
      · subst hj0
        have hi0 : i = 0 := by omega
        rw [hi0]
        exact cmp_self_le htot _
      · exact hsuf i j hij (by omega) hjn
    · exact List.Perm.refl _
  | succ k ihk =>
    intro t hkn hheap hsuf
    have hroot : ∀ j, j < k + 2 → cmp (t j) (t 0) ≤ 0 := fun j hj =>
      subtree_le htot htr hheap (Nat.le_refl 0) j hj (isAnc_zero j)
    have hpre1 : HeapUpto cmp (swapF t 0 (k + 1)) (k + 1) 1 := by
      intro p hp c hc hcn
      rw [swapF_other t 0 (k + 1) p (by omega) (by omega),
          swapF_other t 0 (k + 1) c (by omega) (by omega)]
      exact hheap p (by omega) c hc (by omega)
    obtain ⟨hA, hB, hC⟩ :=
      heapify_spec htot htr (k + 1) (k + 1) 0 (swapF t 0 (k + 1)) (by omega) hpre1
    set t2 := heapify cmp (k + 1) (swapF t 0 (k + 1)) 0 with ht2
    have hframe : ∀ j, k + 1 ≤ j → t2 j = swapF t 0 (k + 1) j := fun j hj =>
      hB j (Or.inr hj)
    have ht2top : t2 (k + 1) = t 0 := by
      rw [hframe (k + 1) (Nat.le_refl _), swapF_right t 0 (k + 1) (by omega)]
    have ht2hi : ∀ j, k + 2 ≤ j → t2 j = t j := by
      intro j hj
      rw [hframe j (by omega), swapF_other t 0 (k + 1) j (by omega) (by omega)]
    have hmemval : ∀ p, p < k + 1 → ∃ j1, j1 < k + 2 ∧ t2 p = t j1 := by
      intro p hp
      have hmem : t2 p ∈ tableList t2 (k + 1) := by
        rw [tableList]
        exact List.mem_map_of_mem _ (List.mem_range.mpr hp)
      have hmem2 := hC.mem_iff.mp hmem
      rw [tableList] at hmem2
      obtain ⟨j0, hj0, hval⟩ := List.mem_map.mp hmem2
      have hj0n : j0 < k + 1 := List.mem_range.mp hj0
      by_cases hj00 : j0 = 0
      · refine ⟨k + 1, by omega, ?_⟩
        rw [← hval, hj00, swapF_left]
      · refine ⟨j0, by omega, ?_⟩
        rw [← hval, swapF_other t 0 (k + 1) j0 hj00 (by omega)]
    have hsuf2 : ∀ p q, p ≤ q → k + 1 ≤ q → q < n → cmp (t2 p) (t2 q) ≤ 0 := by
      intro p q hpq hq1 hqn
      by_cases hq : q = k + 1
      · subst hq
        rw [ht2top]
        by_cases hpw : p < k + 1
        · obtain ⟨j1, hj1, hv⟩ := hmemval p hpw
          rw [hv]
          exact hroot j1 hj1
        · have hpk : p = k + 1 := by omega
          rw [hpk, ht2top]
          exact cmp_self_le htot _
      · have hq2 : k + 2 ≤ q := by omega
        rw [ht2hi q hq2]
        by_cases hpw : p < k + 1
        · obtain ⟨j1, hj1, hv⟩ := hmemval p hpw
          rw [hv]
          exact hsuf j1 q (by omega) (by omega) hqn
        · by_cases hpk : p = k + 1
          · rw [hpk, ht2top]
            exact hsuf 0 q (by omega) (by omega) hqn
          · have hp2 : k + 2 ≤ p := by omega
            rw [ht2hi p hp2]
            exact hsuf p q hpq (by omega) hqn
    obtain ⟨hsorted, hperm⟩ := ihk t2 (by omega) hA hsuf2
    have hperm2 : (tableList t2 n).Perm (tableList (swapF t 0 (k + 1)) n) :=
      perm_extend (by omega) hC hframe
    have hperm3 : (tableList (swapF t 0 (k + 1)) n).Perm (tableList t n) :=
      perm_swapF t (by omega) (by omega)
    constructor
    · simpa only [extractFrom] using hsorted
    · simp only [extractFrom]
      exact (hperm.trans hperm2).trans hperm3

/-- `heap_sort` sorts the whole table and permutes its contents, for every
table size. -/
theorem heap_sort_spec {α : Type} {cmp : α → α → Int}
    (htot : ∀ a b, cmp a b ≤ 0 ∨ cmp b a ≤ 0)
    (htr : ∀ a b c, cmp a b ≤ 0 → cmp b c ≤ 0 → cmp a c ≤ 0)
    (n : Nat) (t : Nat → α) :
    SortedTable cmp (heap_sort cmp n t) n ∧
    (tableList (heap_sort cmp n t) n).Perm (tableList t n) := by
  by_cases hn : n ≤ 1
  · rw [heap_sort, if_pos hn]
    refine ⟨?_, List.Perm.refl _⟩
    intro i j hij hjn
    have hii : i = j := by omega
    rw [hii]
    exact cmp_self_le htot _
  · rw [heap_sort, if_neg hn]
    have hinit : HeapUpto cmp t n (n / 2 - 1 + 1) := by
      intro p hp c hc hcn
      exact absurd hcn (by omega)
    obtain ⟨hheap, hbperm⟩ := buildFrom_spec htot htr n (n / 2 - 1) t hinit
    have hn1 : n - 1 + 1 = n := by omega
    obtain ⟨hsorted, hperm⟩ :=
      extractFrom_spec htot htr n (n - 1) (buildFrom cmp n (n / 2 - 1) t)
        (by omega) (by rw [hn1]; exact hheap) (by intro p q _ hq hqn; omega)
    exact ⟨hsorted, hperm.trans hbperm⟩

/-! ### Partition: pivot bound and permutation -/

theorem partLoop_fst_le {α : Type} (cmp : α → α → Int) (pv : α) :
    ∀ (s j i : Nat) (t : Nat → α), (partLoop cmp pv s j i t).1 ≤ i + s := by
  intro s
  induction s with
  | zero => intro j i t; simp [partLoop]
  | succ s ih =>
    intro j i t
    simp only [partLoop]
    split_ifs
    · have := ih (j + 1) (i + 1) (swapF t i j)
      omega
    · have := ih (j + 1) i t
      omega

theorem partLoop_perm {α : Type} (cmp : α → α → Int) (pv : α) {n : Nat} :
    ∀ (s j i : Nat) (t : Nat → α), i ≤ j → j + s ≤ n →
      (tableList (partLoop cmp pv s j i t).2 n).Perm (tableList t n) := by
  intro s
  induction s with
  | zero => intro j i t _ _; exact List.Perm.refl _
  | succ s ih =>
    intro j i t hij hjn
    simp only [partLoop]
    split_ifs
    · exact (ih (j + 1) (i + 1) _ (by omega) (by omega)).trans
        (perm_swapF t (by omega) (by omega))
    · exact ih (j + 1) i t (by omega) (by omega)

theorem partition_fst_le {α : Type} (cmp : α → α → Int) (t : Nat → α)
    {low high : Nat} (hlh : low ≤ high) : (partition cmp t low high).1 ≤ high := by
  simp only [partition]
  have := partLoop_fst_le cmp (t high) (high - low) low low t
  omega

theorem partition_perm {α : Type} (cmp : α → α → Int) (t : Nat → α)
    {n low high : Nat} (hlh : low ≤ high) (hhn : high < n) :
    (tableList (partition cmp t low high).2 n).Perm (tableList t n) := by
  have hfst := partLoop_fst_le cmp (t high) (high - low) low low t
  have hperm := @partLoop_perm α cmp (t high) n (high - low) low low t (Nat.le_refl low)
    (by omega)
  simp only [partition]
  refine List.Perm.trans (perm_swapF _ ?_ hhn) hperm
  omega

/-- `introsort_impl` always leaves the whole table sorted and permuted:
each base case sorts the full table, and on the recursive path the last
executed recursive call does so. -/
theorem introsortImpl_spec {α : Type} {cmp : α → α → Int}
    (htot : ∀ a b, cmp a b ≤ 0 ∨ cmp b a ≤ 0)
    (htr : ∀ a b c, cmp a b ≤ 0 → cmp b c ≤ 0 → cmp a c ≤ 0)
    (n : Nat) :
    ∀ (d b e : Nat) (t : Nat → α), e < n →
      SortedTable cmp (introsortImpl cmp n d b e t) n ∧
      (tableList (introsortImpl cmp n d b e t) n).Perm (tableList t n) := by
  intro d
  induction d with
  | zero =>
    intro b e t _
    by_cases hsize : e - b + 1 < 16
    · simp only [introsortImpl]
      rw [if_pos hsize]
      exact ⟨insertion_sort_sorted htot htr n t, insertion_sort_perm cmp n t⟩
    · simp only [introsortImpl]
      rw [if_neg hsize]
      exact heap_sort_spec htot htr n t
  | succ d ihd =>
    intro b e t hen
    by_cases hsize : e - b + 1 < 16
    · simp only [introsortImpl]
      rw [if_pos hsize]
      exact ⟨insertion_sort_sorted htot htr n t, insertion_sort_perm cmp n t⟩
    · simp only [introsortImpl]
      rw [if_neg hsize]
      have hbe : b + 15 ≤ e := by omega
      have hp_le : (partition cmp t b e).1 ≤ e := partition_fst_le cmp t (by omega)
      have hpperm : (tableList (partition cmp t b e).2 n).Perm (tableList t n) :=
        partition_perm cmp t (by omega) hen
      by_cases hlast : (partition cmp t b e).1 + 1 < e
      · rw [if_pos hlast]
        by_cases hfirst : b + 1 < (partition cmp t b e).1
        · rw [if_pos hfirst]
          obtain ⟨_, hp1⟩ :=
            ihd b ((partition cmp t b e).1 - 1) (partition cmp t b e).2 (by omega)
          obtain ⟨hs2, hp2⟩ := ihd ((partition cmp t b e).1 + 1) e _ hen
          exact ⟨hs2, (hp2.trans hp1).trans hpperm⟩
        · rw [if_neg hfirst]
          obtain ⟨hs2, hp2⟩ :=
            ihd ((partition cmp t b e).1 + 1) e (partition cmp t b e).2 hen
          exact ⟨hs2, hp2.trans hpperm⟩
      · rw [if_neg hlast]
        have hfirst : b + 1 < (partition cmp t b e).1 := by omega
        rw [if_pos hfirst]
        obtain ⟨hs1, hp1⟩ :=
          ihd b ((partition cmp t b e).1 - 1) (partition cmp t b e).2 (by omega)
        exact ⟨hs1, hp1.trans hpperm⟩

/-! ### Claim C1: generic_sort sorts and permutes -/

/-- C1: for every array iterator over an `n`-element backing buffer and every
comparator implementing a total order (here: totality and transitivity of the
non-positive comparison relation), after `generic_sort` returns, the
iterator's pointer table is non-decreasing under the comparator and its
contents are a permutation of the pointer-table contents before the call. -/
theorem c1_generic_sort_sorted_and_perm {α : Type} {cmp : α → α → Int}
    (htot : ∀ a b, cmp a b ≤ 0 ∨ cmp b a ≤ 0)
    (htr : ∀ a b c, cmp a b ≤ 0 → cmp b c ≤ 0 → cmp a c ≤ 0)
    (n : Nat) (t : Nat → α) :
    SortedTable cmp (generic_sort cmp n t) n ∧
    (tableList (generic_sort cmp n t) n).Perm (tableList t n) := by
  by_cases hn : n ≤ 1
  · rw [generic_sort, if_pos hn]
    refine ⟨?_, List.Perm.refl _⟩
    intro i j hij hjn
    have hii : i = j := by omega
    rw [hii]
    exact cmp_self_le htot _
  · rw [generic_sort, if_neg hn]
    exact introsortImpl_spec htot htr n (depth_limit n) 0 (n - 1) t (by omega)

theorem c1_witness :
    SortedTable intCmp
      (generic_sort intCmp 3 (fun k => if k = 0 then (3 : Int) else if k = 1 then 1 else 2)) 3 ∧
    (tableList
      (generic_sort intCmp 3 (fun k => if k = 0 then (3 : Int) else if k = 1 then 1 else 2)) 3).Perm
      (tableList (fun k => if k = 0 then (3 : Int) else if k = 1 then 1 else 2) 3) :=
  c1_generic_sort_sorted_and_perm
    (fun a b => by unfold intCmp; omega)
    (fun a b c h1 h2 => by unfold intCmp at h1 h2 ⊢; omega)
    3 (fun k => if k = 0 then (3 : Int) else if k = 1 then 1 else 2)

/-! ### Claim C2: small-subrange fallback sorts the whole table -/

/-- C2 counterexample: `introsort_impl` invoked on the subrange `[0, 0]` of a
2-slot table `[2, 1]` (subrange size `1 < 16`) changes slot `1`, which lies
outside `[begin, end] = [0, 0]`: the slot held `1` before the call and holds
`2` after it, so the insertion-sort fallback does not leave slots outside the
subrange unchanged. -/
theorem c2_counterexample :
    (0 : Nat) - 0 + 1 < 16 ∧
    introsortImpl intCmp 2 1 0 0 (fun k => if k = 0 then (2 : Int) else 1) 1 = 2 ∧
    (fun k => if k = 0 then (2 : Int) else 1) 1 = 1 :=
  ⟨by norm_num, by decide, rfl⟩

/-- C2 (amended): whenever the introsort recursion reaches a subrange
`[begin, end]` of size `end - begin + 1 < 16`, it runs insertion sort on the
entire `n`-slot pointer table (the C fallback sorts via `iter->size`), which
leaves the whole table — not just the subrange — sorted, permuting the whole
table's contents; slots outside `[begin, end]` may therefore change. -/
theorem c2_amended_small_range_sorts_whole_table {α : Type} {cmp : α → α → Int}
    (htot : ∀ a b, cmp a b ≤ 0 ∨ cmp b a ≤ 0)
    (htr : ∀ a b c, cmp a b ≤ 0 → cmp b c ≤ 0 → cmp a c ≤ 0)
    (n d b e : Nat) (t : Nat → α) (hsize : e - b + 1 < 16) :
    introsortImpl cmp n d b e t = insertion_sort cmp n t ∧
    SortedTable cmp (introsortImpl cmp n d b e t) n ∧
    (tableList (introsortImpl cmp n d b e t) n).Perm (tableList t n) := by
  have heq : introsortImpl cmp n d b e t = insertion_sort cmp n t := by
    cases d <;> simp [introsortImpl, hsize]
  refine ⟨heq, ?_, ?_⟩
  · rw [heq]
    exact insertion_sort_sorted htot htr n t
  · rw [heq]
    exact insertion_sort_perm cmp n t

theorem c2_witness :
    introsortImpl intCmp 2 1 0 0 (fun k => if k = 0 then (2 : Int) else 1) =
      insertion_sort intCmp 2 (fun k => if k = 0 then (2 : Int) else 1) ∧
    SortedTable intCmp
      (introsortImpl intCmp 2 1 0 0 (fun k => if k = 0 then (2 : Int) else 1)) 2 ∧
    (tableList (introsortImpl intCmp 2 1 0 0 (fun k => if k = 0 then (2 : Int) else 1)) 2).Perm
      (tableList (fun k => if k = 0 then (2 : Int) else 1) 2) :=
  c2_amended_small_range_sorts_whole_table
    (fun a b => by unfold intCmp; omega)
    (fun a b c h1 h2 => by unfold intCmp at h1 h2 ⊢; omega)
    2 1 0 0 (fun k => if k = 0 then (2 : Int) else 1) (by norm_num)

/-! ### Claim C8: the recursion-depth budget -/

/-- C8 counterexample: for a 3-element table the code computes
`(int)(2 * log2(3)) = ⌊2·log₂ 3⌋ = ⌊3.169...⌋ = 3`, whereas the claim's
formula `2 * ⌊log₂ 3⌋` gives `2`. -/
theorem c8_counterexample : depth_limit 3 = 3 ∧ 2 * Nat.log2 3 = 2 := by
  constructor
  · have h9 : Nat.log 2 9 = 3 :=
      Nat.log_eq_of_pow_le_of_lt_pow (by norm_num) (by norm_num)
    simp [depth_limit, Nat.log2_eq_log_two, h9]
  · have h3 : Nat.log 2 3 = 1 :=
      Nat.log_eq_of_pow_le_of_lt_pow (by norm_num) (by norm_num)
    simp [Nat.log2_eq_log_two, h3]

/-- C8 (amended): the initial recursion-depth budget is
`⌊2·log₂ n⌋ = Nat.log2 (n·n)`, which always lies between `2·⌊log₂ n⌋` and
`2·⌊log₂ n⌋ + 1`; and for `n ≤ 1` the sort is a no-op that changes nothing. -/
theorem c8_amended_depth_limit_and_noop {α : Type} (cmp : α → α → Int)
    (t : Nat → α) (n : Nat) :
    (1 ≤ n → 2 * Nat.log2 n ≤ depth_limit n ∧ depth_limit n ≤ 2 * Nat.log2 n + 1) ∧
    (n ≤ 1 → generic_sort cmp n t = t) := by
  constructor
  · intro hn
    rw [depth_limit, Nat.log2_eq_log_two, Nat.log2_eq_log_two]
    have h1 : 2 ^ Nat.log 2 n ≤ n := Nat.pow_log_le_self 2 (by omega)
    have h2 : n < 2 ^ (Nat.log 2 n + 1) := Nat.lt_pow_succ_log_self (by norm_num) n
    have hnn : n * n ≠ 0 := by positivity
    constructor
    · refine (Nat.pow_le_iff_le_log (by norm_num) hnn).mp ?_
      have : 2 ^ (2 * Nat.log 2 n) = 2 ^ Nat.log 2 n * 2 ^ Nat.log 2 n := by
        rw [← pow_add]
        congr 1
        omega
      rw [this]
      exact Nat.mul_le_mul h1 h1
    · have hlt : Nat.log 2 (n * n) < 2 * Nat.log 2 n + 2 := by
        refine (Nat.lt_pow_iff_log_lt (by norm_num) hnn).mp ?_
        have hsq : 2 ^ (2 * Nat.log 2 n + 2) =
            2 ^ (Nat.log 2 n + 1) * 2 ^ (Nat.log 2 n + 1) := by
          rw [← pow_add]
          congr 1
          omega
        rw [hsq]
        exact Nat.mul_lt_mul'' h2 h2
      omega
  · intro hn
    rw [generic_sort, if_pos hn]

theorem c8_witness :
    (2 * Nat.log2 5 ≤ depth_limit 5 ∧ depth_limit 5 ≤ 2 * Nat.log2 5 + 1) ∧
    generic_sort intCmp 1 (fun _ => (0 : Int)) = (fun _ => (0 : Int)) :=
  ⟨(c8_amended_depth_limit_and_noop intCmp (fun _ => (0 : Int)) 5).1 (by norm_num),
   (c8_amended_depth_limit_and_noop intCmp (fun _ => (0 : Int)) 1).2 (by norm_num)⟩

/-! ### Claim C7: advance-by-n on a fresh array iterator -/

/-- C7: the claim states `iterator_advance(it, n)` on a fresh array iterator
over `m` elements fails iff `n > m`.  The code violates this at `m = 0`,
`n = 1`: `generic_array_next` performs no size check on the sentinel branch
(CIterators.c lines 32-36), so the first advance on an empty array iterator
"succeeds" (returning the iterator after an out-of-bounds read of
`elements[0]`), and `iterator_advance(it, 1)` returns success even though
`1 > 0`. -/
theorem c7_advance_empty_array_succeeds :
    (iterator_advance (create_generic_array_iterator ([] : List Int)) 1).1 = true ∧
    ¬ (1 ≤ (0 : Nat)) :=
  ⟨by decide, by decide⟩

/-! ### Claim C9: zip advance under tuple-buffer allocation failure -/

/-- C9: the claim (and the spec's error policy) says a failed tuple-buffer
allocation makes the zip advance return an inert failure without exposing a
partially built tuple and without aborting.  `multi_zip_next` instead calls
`malloc` with no null check (CIterators.c line 211) and stores through the
null buffer as soon as the first source advances — modelled as the crash
outcome `Except.error ()` on a zip of two one-element sources. -/
theorem c9_zip_alloc_failure_crashes :
    multiZipNextAlloc false [[(1 : Int)], [2]] =
      (Except.error () : Except Unit (Option (List Int) × List (List Int))) := rfl

/-! ### Claim C10: range_equal ignores the stored start -/

/-- C10: equality of two range iterators compares only the impl state's
`current`, `end` and `step` (CIterators.c lines 138-143): two range states
agreeing on those three compare equal whatever their stored `start` values
(and whatever their record-level `current` pointers). -/
theorem c10_range_equal_ignores_start :
    ∀ (s1 s2 c e st : Int) (b1 b2 : Bool),
      range_equal ⟨s1, c, e, st, b1⟩ ⟨s2, c, e, st, b2⟩ = true := by
  intro s1 s2 c e st b1 b2
  simp [range_equal]

/-! ### Claim C3: behaviour at exhaustion -/

/-- C3 counterexample: the range iterator built by
`create_range_iterator(0, 1, 1)` produces `0`, and the following advance
signals exhaustion while `it->current` still points at the last produced
value (`curNonNull = true`), so exhaustion does not clear `current` for the
range variant. -/
theorem c3_counterexample :
    range_next ⟨0, -1, 1, 1, false⟩ = (true, ⟨0, 0, 1, 1, true⟩) ∧
    range_next ⟨0, 0, 1, 1, true⟩ = (false, ⟨0, 0, 1, 1, true⟩) ∧
    (⟨0, 0, 1, 1, true⟩ : RangeIter).curNonNull = true :=
  ⟨by decide, by decide, rfl⟩

/-- C3 (amended): for the array variant, the advance that hits the end
returns exhaustion with `current` cleared, and every further advance is a
no-op returning exhaustion with `current` still empty.  For the range
variant, an exhausted advance returns the exhaustion signal as a strict
no-op (the state is unchanged, so all further advances keep returning
exhaustion), but it does not clear `it->current`, which keeps pointing at
the last produced value. -/
theorem c3_amended_exhaustion {α : Type} :
    (∀ (it : ArrayIter α) (i : Nat), it.index = some i →
      it.elements.length ≤ i + 1 →
      generic_array_next it = (false, { it with current := none }) ∧
      generic_array_next { it with current := none } =
        (false, { it with current := none })) ∧
    (∀ r : RangeIter, (range_next r).1 = false → (range_next r).2 = r) := by
  constructor
  · intro it i hidx hlen
    constructor
    · simp only [generic_array_next, hidx]
      rw [if_neg (by omega)]
    · simp only [generic_array_next, hidx]
      rw [if_neg (by omega)]
  · intro r h
    simp only [range_next] at h ⊢
    split_ifs at h ⊢ with hc
    rfl

theorem c3_witness :
    (generic_array_next (⟨[5], some 0, some 5⟩ : ArrayIter Int) =
        (false, ⟨[5], some 0, none⟩) ∧
      generic_array_next (⟨[5], some 0, none⟩ : ArrayIter Int) =
        (false, ⟨[5], some 0, none⟩)) ∧
    (range_next ⟨0, 0, 1, 1, true⟩).2 = ⟨0, 0, 1, 1, true⟩ := by
  refine ⟨?_, (c3_amended_exhaustion (α := Int)).2 ⟨0, 0, 1, 1, true⟩ (by decide)⟩
  exact (c3_amended_exhaustion (α := Int)).1 ⟨[5], some 0, some 5⟩ 0 rfl (by norm_num)

/-! ### Claim C4: iterator_to_array and the shared impl state -/

/-- Draining an array iterator positioned at a valid index `i` walks the
shared impl state to the last index and leaves `current` null. -/
theorem iterator_to_array_from_some {α : Type} (l : List α) :
    ∀ (m i : Nat) (c : Option α), l.length - i ≤ m → i < l.length →
      (iterator_to_array ⟨l, some i, c⟩).2 = ⟨l, some (l.length - 1), none⟩ := by
  intro m
  induction m with
  | zero =>
    intro i c hm hi
    omega
  | succ m ih =>
    intro i c hm hi
    rw [iterator_to_array]
    split
    · next it' heq =>
      simp only [generic_array_next] at heq
      split_ifs at heq with hlt
      · simp only [Prod.mk.injEq, true_and] at heq
        rw [← heq]
        exact ih (i + 1) _ (by omega) (by omega)
      · simp at heq
    · next it' heq =>
      simp only [generic_array_next] at heq
      split_ifs at heq with hlt
      · simp at heq
      · simp only [Prod.mk.injEq, true_and] at heq
        rw [← heq]
        have hii : i = l.length - 1 := by omega
        rw [hii]
    
/-- Draining a freshly constructed array iterator leaves the shared impl
state at index `length - 1` (index `0` for the empty table, where the buggy
unchecked first advance still runs) with `current` null. -/
theorem iterator_to_array_fresh {α : Type} (l : List α) :
    (iterator_to_array (create_generic_array_iterator l)).2 =
      ⟨l, some (l.length - 1), none⟩ := by
  rw [create_generic_array_iterator, iterator_to_array]
  split
  · next it' heq =>
    simp only [generic_array_next, Prod.mk.injEq, true_and] at heq
    rw [← heq]
    cases l with
    | nil =>
      rw [iterator_to_array]
      split
      · next it2 heq2 =>
        simp only [generic_array_next] at heq2
        rw [if_neg (by simp)] at heq2
        simp at heq2
      · next it2 heq2 =>
        simp only [generic_array_next] at heq2
        rw [if_neg (by simp)] at heq2
        simp only [Prod.mk.injEq, true_and] at heq2
        rw [← heq2]
        rfl
    | cons x xs =>
      exact iterator_to_array_from_some (x :: xs) (x :: xs).length 0 _ (by omega)
        (by simp)
  · next it' heq =>
    simp [generic_array_next] at heq

/-- C4 counterexample: after `iterator_to_array` on a fresh 2-element array
iterator, the shared impl state's index is `some 1`, whereas before the call
it was the before-first sentinel (`none`): the caller's variant state is not
"exactly as it was before the call". -/
theorem c4_counterexample :
    (iterator_to_array (create_generic_array_iterator ([10, 20] : List Int))).2.index =
      some 1 ∧
    (create_generic_array_iterator ([10, 20] : List Int)).index = none := by
  constructor
  · rw [iterator_to_array_fresh]
    rfl
  · rfl

/-- C4 (amended): `iterator_to_array` receives the `Iterator` record by
value, so the caller's record fields are untouched; but the variant state
behind `impl` is a shared heap pointer, and draining the copy advances it:
after the call on a fresh array iterator over `m` elements the shared state
is left fully consumed at index `m - 1` (index `0` for the empty table) with
`current` null — not restored to the pre-call sentinel. -/
theorem c4_amended_shared_impl_consumed {α : Type} (l : List α) :
    (iterator_to_array (create_generic_array_iterator l)).2 =
      ⟨l, some (l.length - 1), none⟩ ∧
    (create_generic_array_iterator l).index = none :=
  ⟨iterator_to_array_fresh l, rfl⟩

/-! ### Claim C5: the range iterator's produced sequence -/

/-- Draining a positive-step range state `⟨s, c, e, st, b⟩` with enough fuel
produces exactly the values `c + st, c + 2·st, ...` strictly below `e`. -/
theorem rangeDrain_pos :
    ∀ (fuel : Nat) (s c e st : Int) (b : Bool), 0 < st →
      e ≤ c + st + (fuel : Int) * st →
      ((∀ k : Nat, k < (rangeDrain fuel ⟨s, c, e, st, b⟩).length ↔
          c + ((k : Int) + 1) * st < e) ∧
       (∀ k : Nat, k < (rangeDrain fuel ⟨s, c, e, st, b⟩).length →
          (rangeDrain fuel ⟨s, c, e, st, b⟩).get? k = some (c + ((k : Int) + 1) * st))) := by
  intro fuel
  induction fuel with
  | zero =>
    intro s c e st b hst hfuel
    push_cast at hfuel
    constructor
    · intro k
      simp only [rangeDrain, List.length_nil]
      constructor
      · omega
      · intro hk
        exfalso
        have h1 : (0 : Int) ≤ (k : Int) * st :=
          mul_nonneg (Int.natCast_nonneg k) (le_of_lt hst)
        have h2 : c + ((k : Int) + 1) * st = c + st + (k : Int) * st := by ring
        rw [h2] at hk
        linarith
    · intro k h
      simp only [rangeDrain, List.length_nil] at h
      omega
  | succ fuel ih =>
    intro s c e st b hst hfuel
    have hcast : e ≤ c + st + st + (fuel : Int) * st := by
      push_cast at hfuel
      linarith
    by_cases hc : e ≤ c + st
    · have hnext : range_next ⟨s, c, e, st, b⟩ = (false, ⟨s, c, e, st, b⟩) := by
        simp only [range_next]
        rw [if_pos (Or.inl ⟨hst, hc⟩)]
      constructor
      · intro k
        simp only [rangeDrain, hnext, List.length_nil]
        constructor
        · omega
        · intro hk
          exfalso
          have h1 : (0 : Int) ≤ (k : Int) * st :=
            mul_nonneg (Int.natCast_nonneg k) (le_of_lt hst)
          have h2 : c + ((k : Int) + 1) * st = c + st + (k : Int) * st := by ring
          rw [h2] at hk
          linarith
      · intro k h
        simp only [rangeDrain, hnext, List.length_nil] at h
        omega
    · push_neg at hc
      have hnext : range_next ⟨s, c, e, st, b⟩ = (true, ⟨s, c + st, e, st, true⟩) := by
        simp only [range_next]
        rw [if_neg (by rintro (⟨_, h1⟩ | ⟨h1, _⟩) <;> omega)]
      obtain ⟨ih1, ih2⟩ := ih s (c + st) e st true hst (by linarith)
      constructor
      · intro k
        simp only [rangeDrain, hnext, List.length_cons]
        cases k with
        | zero =>
          refine iff_of_true (by omega) ?_
          push_cast
          linarith
        | succ k =>
          have hk := ih1 k
          have hexp : c + (((k : Int) + 1) + 1) * st = c + st + ((k : Int) + 1) * st := by
            ring
          constructor
          · intro hlt
            have hlt2 : k < (rangeDrain fuel ⟨s, c + st, e, st, true⟩).length := by
              omega
            have := hk.mp hlt2
            push_cast
            push_cast at this
            linarith
          · intro hval
            push_cast at hval
            have : c + st + ((k : Int) + 1) * st < e := by linarith
            have := hk.mpr this
            omega
      · intro k h
        simp only [rangeDrain, hnext, List.length_cons] at h
        cases k with
        | zero =>
          simp only [rangeDrain, hnext, List.get?_cons_zero]
          congr 1
          push_cast
          ring
        | succ k =>
          simp only [rangeDrain, hnext, List.get?_cons_succ]
          have hk2 : k < (rangeDrain fuel ⟨s, c + st, e, st, true⟩).length := by omega
          rw [ih2 k hk2]
          congr 1
          push_cast
          ring

/-- `range_next` commutes with negating every component of the state. -/
theorem range_next_neg (it : RangeIter) :
    range_next (rangeNeg it) = ((range_next it).1, rangeNeg (range_next it).2) := by
  rcases it with ⟨s, c, e, st, b⟩
  simp only [range_next, rangeNeg]
  by_cases hc : (0 < st ∧ e ≤ c + st) ∨ (st < 0 ∧ c + st ≤ e)
  · have hcond2 : (0 < -st ∧ -e ≤ -c + -st) ∨ (-st < 0 ∧ -c + -st ≤ -e) := by omega
    rw [if_pos hc, if_pos hcond2]
  · have hcond2 : ¬ ((0 < -st ∧ -e ≤ -c + -st) ∨ (-st < 0 ∧ -c + -st ≤ -e)) := by omega
    rw [if_neg hc, if_neg hcond2]
    simp only [rangeNeg, Prod.mk.injEq, RangeIter.mk.injEq, and_true, true_and]
    ring

/-- Draining the negated state produces the negated sequence. -/
theorem rangeDrain_neg : ∀ (fuel : Nat) (it : RangeIter),
    rangeDrain fuel (rangeNeg it) = (rangeDrain fuel it).map (fun x => -x) := by
  intro fuel
  induction fuel with
  | zero => intro it; rfl
  | succ fuel ih =>
    intro it
    simp only [rangeDrain, range_next_neg]
    rcases h : range_next it with ⟨ok, it2⟩
    cases ok
    · simp
    · simp only [List.map_cons]
      rw [ih it2]
      rfl

/-- C5: for a range iterator constructed with `(start, end, step)`, if
`step > 0` the successive advance calls produce exactly the values
`start, start+step, start+2·step, ...` strictly less than `end` (position `k`
of the drained output exists iff `start + k·step < end` and then holds that
value); for `step < 0` the analogous strictly-greater sequence; and
construction with `step = 0` returns the inert zeroed iterator.  `fuel`
bounds the number of advance calls; the hypothesis makes it large enough to
reach exhaustion. -/
theorem c5_range_iterator_sequence (s e st : Int) :
    (st = 0 → create_range_iterator s e st = none) ∧
    (∀ it0, create_range_iterator s e st = some it0 →
      (0 < st → ∀ fuel : Nat, e ≤ s + (fuel : Int) * st →
        (∀ k : Nat, k < (rangeDrain fuel it0).length ↔ s + (k : Int) * st < e) ∧
        (∀ k : Nat, k < (rangeDrain fuel it0).length →
          (rangeDrain fuel it0).get? k = some (s + (k : Int) * st))) ∧
      (st < 0 → ∀ fuel : Nat, s + (fuel : Int) * st ≤ e →
        (∀ k : Nat, k < (rangeDrain fuel it0).length ↔ e < s + (k : Int) * st) ∧
        (∀ k : Nat, k < (rangeDrain fuel it0).length →
          (rangeDrain fuel it0).get? k = some (s + (k : Int) * st)))) := by
  constructor
  · intro h0
    simp [create_range_iterator, h0]
  · intro it0 hcreate
    have hstne : st ≠ 0 := by
      intro h0
      simp [create_range_iterator, h0] at hcreate
    have hit0 : it0 = ⟨s, s - st, e, st, false⟩ := by
      simp [create_range_iterator, hstne] at hcreate
      exact hcreate.symm
    subst hit0
    constructor
    · intro hst fuel hfuel
      obtain ⟨h1, h2⟩ := rangeDrain_pos fuel s (s - st) e st false hst
        (by linarith)
      constructor
      · intro k
        have hexp : (s - st) + ((k : Int) + 1) * st = s + (k : Int) * st := by ring
        rw [h1 k, hexp]
      · intro k hk
        rw [h2 k hk]
        congr 1
        ring
    · intro hst fuel hfuel
      have hstate : rangeNeg ⟨s, s - st, e, st, false⟩ =
          ⟨-s, -(s - st), -e, -st, false⟩ := rfl
      have hneg := rangeDrain_neg fuel ⟨s, s - st, e, st, false⟩
      rw [hstate] at hneg
      obtain ⟨h1, h2⟩ := rangeDrain_pos fuel (-s) (-(s - st)) (-e) (-st) false
        (by omega)
        (by
          have hr : -(s - st) + -st + (fuel : Int) * -st = -(s + (fuel : Int) * st) := by
            ring
          rw [hr]
          linarith)
      rw [hneg] at h1 h2
      constructor
      · intro k
        have hk := h1 k
        rw [List.length_map] at hk
        have hexp : -(s - st) + ((k : Int) + 1) * -st = -(s + (k : Int) * st) := by ring
        rw [hexp, neg_lt_neg_iff] at hk
        exact hk
      · intro k hk
        have hk2 : k < ((rangeDrain fuel ⟨s, s - st, e, st, false⟩).map (fun x => -x)).length := by
          rw [List.length_map]
          exact hk
        have hv := h2 k hk2
        rw [List.get?_map] at hv
        rcases ho : (rangeDrain fuel ⟨s, s - st, e, st, false⟩).get? k with _ | v
        · rw [ho] at hv
          simp at hv
        · rw [ho] at hv
          simp only [Option.map_some'] at hv
          have hveq : -v = -(s - st) + ((k : Int) + 1) * -st := by
            injection hv
          have : v = s + (k : Int) * st := by
            have hexp : -(s - st) + ((k : Int) + 1) * -st = -(s + (k : Int) * st) := by
              ring
            rw [hexp] at hveq
            omega
          rw [this]

theorem c5_witness :
    ((∀ k : Nat, k < (rangeDrain 5 ⟨0, -2, 10, 2, false⟩).length ↔
        (0 : Int) + (k : Int) * 2 < 10) ∧
     (∀ k : Nat, k < (rangeDrain 5 ⟨0, -2, 10, 2, false⟩).length →
        (rangeDrain 5 ⟨0, -2, 10, 2, false⟩).get? k = some ((0 : Int) + (k : Int) * 2))) ∧
    create_range_iterator 0 10 0 = none :=
  ⟨((c5_range_iterator_sequence 0 10 2).2 ⟨0, -2, 10, 2, false⟩ (by decide)).1
      (by norm_num) 5 (by norm_num),
   (c5_range_iterator_sequence 0 10 0).1 rfl⟩

/-! ### Claim C6: zip yields min(s_1..s_k) tuples -/

/-- If some source is exhausted, the zip advance signals exhaustion. -/
theorem multiZipNext_none {α : Type} :
    ∀ ls : List (List α), [] ∈ ls → (multiZipNext ls).1 = none := by
  intro ls
  induction ls with
  | nil => intro h; simp at h
  | cons l rest ih =>
    intro h
    cases l with
    | nil => rfl
    | cons x xs =>
      have hrest : [] ∈ rest := by
        rcases List.mem_cons.mp h with h1 | h1
        · simp at h1
        · exact h1
      simp only [multiZipNext]
      rcases hr : multiZipNext rest with ⟨o, rest2⟩
      have ho : o = none := by
        have := ih hrest
        rw [hr] at this
        exact this
      subst ho
      rfl

/-- If every source still has an element, the zip advance produces the tuple
of heads and advances every source to its tail. -/
theorem multiZipNext_some {α : Type} (d : α) :
    ∀ ls : List (List α), (∀ l ∈ ls, l ≠ []) →
      multiZipNext ls = (some (ls.map (fun l => l.getD 0 d)), ls.map List.tail) := by
  intro ls
  induction ls with
  | nil => intro _; rfl
  | cons l rest ih =>
    intro h
    cases l with
    | nil => exact absurd rfl (h [] (List.mem_cons_self _ _))
    | cons x xs =>
      simp only [multiZipNext]
      rw [ih (fun l hl => h l (List.mem_cons_of_mem _ hl))]
      simp

/-- Draining a zip of sources whose minimum remaining length is `m`, with at
least one source and enough fuel, yields exactly `m` tuples, the `t`-th being
the list of the sources' `t`-th elements in order. -/
theorem zipDrain_spec {α : Type} (d : α) :
    ∀ (m : Nat) (ls : List (List α)) (fuel : Nat), ls ≠ [] →
      (∀ l ∈ ls, m ≤ l.length) → (∃ l ∈ ls, l.length = m) → m ≤ fuel →
      (zipDrain fuel ls).length = m ∧
      (∀ t, t < m → (zipDrain fuel ls).get? t =
        some (ls.map (fun l => l.getD t d))) := by
  intro m
  induction m with
  | zero =>
    intro ls fuel _ _ hex _
    obtain ⟨l0, hl0, hlen0⟩ := hex
    have hnil : [] ∈ ls := by
      have : l0 = [] := List.length_eq_zero.mp hlen0
      rwa [this] at hl0
    have hnone := multiZipNext_none ls hnil
    cases fuel with
    | zero => exact ⟨rfl, fun t ht => by omega⟩
    | succ fuel =>
      constructor
      · simp only [zipDrain]
        rcases hn : multiZipNext ls with ⟨o, ls2⟩
        rw [hn] at hnone
        simp at hnone
        subst hnone
        rfl
      · intro t ht
        omega
  | succ m ihm =>
    intro ls fuel hne hmin hex hfuel
    have hall : ∀ l ∈ ls, l ≠ [] := by
      intro l hl hcon
      have := hmin l hl
      rw [hcon] at this
      simp at this
    cases fuel with
    | zero => omega
    | succ fuel =>
      have hstep := multiZipNext_some d ls hall
      have htails_ne : ls.map List.tail ≠ [] := by
        intro hcon
        exact hne (List.map_eq_nil.mp hcon)
      have htails_min : ∀ l ∈ ls.map List.tail, m ≤ l.length := by
        intro l hl
        obtain ⟨l0, hl0, rfl⟩ := List.mem_map.mp hl
        have := hmin l0 hl0
        rw [List.length_tail]
        omega
      have htails_ex : ∃ l ∈ ls.map List.tail, l.length = m := by
        obtain ⟨l0, hl0, hlen0⟩ := hex
        refine ⟨l0.tail, List.mem_map_of_mem _ hl0, ?_⟩
        rw [List.length_tail, hlen0]
        omega
      obtain ⟨ihlen, ihget⟩ := ihm (ls.map List.tail) fuel htails_ne htails_min
        htails_ex (by omega)
      constructor
      · simp only [zipDrain, hstep, List.length_cons, ihlen]
      · intro t ht
        cases t with
        | zero =>
          simp only [zipDrain, hstep, List.get?_cons_zero]
        | succ t =>
          simp only [zipDrain, hstep, List.get?_cons_succ]
          rw [ihget t (by omega), List.map_map]
          congr 1
          refine List.map_congr_left ?_
          intro l hl
          have hlne : l ≠ [] := hall l hl
          cases l with
          | nil => exact absurd rfl hlne
          | cons y ys => rfl

/-- C6: a zip of `k ≥ 1` source iterators holding `s_1, ..., s_k` remaining
elements yields, before signalling exhaustion, exactly `m = min(s_1..s_k)`
tuples (stated via `m` being a lower bound attained by some source), the
`t`-th tuple being the `k` sources' `t`-th elements in order. -/
theorem c6_zip_yields_min_tuples {α : Type} (d : α) (ls : List (List α))
    (m fuel : Nat) (hne : ls ≠ []) (hmin : ∀ l ∈ ls, m ≤ l.length)
    (hex : ∃ l ∈ ls, l.length = m) (hfuel : m ≤ fuel) :
    (zipDrain fuel ls).length = m ∧
    (∀ t, t < m → (zipDrain fuel ls).get? t =
      some (ls.map (fun l => l.getD t d))) :=
  zipDrain_spec d m ls fuel hne hmin hex hfuel

theorem c6_witness :
    (zipDrain 3 [[(1 : Int), 2, 3], [4, 5, 6, 7], [7, 8, 9]]).length = 3 ∧
    (∀ t, t < 3 → (zipDrain 3 [[(1 : Int), 2, 3], [4, 5, 6, 7], [7, 8, 9]]).get? t =
      some ([[(1 : Int), 2, 3], [4, 5, 6, 7], [7, 8, 9]].map (fun l => l.getD t 0))) :=
  c6_zip_yields_min_tuples 0 [[(1 : Int), 2, 3], [4, 5, 6, 7], [7, 8, 9]] 3 3
    (by decide) (by decide) ⟨[(1 : Int), 2, 3], by decide, rfl⟩ (by norm_num)
